import Mathlib

/-!
Verification of the hierarchical markdown chunker
(`src/processors/chunker.py`, class `MarkdownChunker`).

The chunker is a pure transformation over unicode text, so we embed it
shallowly: Python strings become `List Char`, the `re` patterns used by the
source (`^<!--\s*PAGE:\s*(\d+)\s*-->$`, `^(#{1,4})\s+(.+)$`,
`^\s*[-*+]\s`, `^\s*\d+\.\s`, and the literal search for three backticks)
become executable character-level matchers with the same match semantics
(including greedy/backtrack behaviour of `\s+ (.+)$` and the per-line
reading of `re.MULTILINE` searches), and the `chunk` driver becomes a
function from a token budget (`max_tokens`) and a document to a fragment
list.  `\d` is modelled over the ASCII digits and the whitespace class
covers Python's `str.isspace` code points.
-/

namespace Chunker

/-- Characters of a Python string, in order. -/
abbrev Str := List Char

/-- Character list of a string literal. -/
def str (s : String) : List Char := s.data

/-- Python whitespace (the `str.isspace` / regex `\s` class). -/
def isWS (c : Char) : Bool :=
  c == ' ' || c == '\t' || c == '\n' || c == '\x0B' || c == '\x0C' || c == '\r'
  || c == '\x1C' || c == '\x1D' || c == '\x1E' || c == '\x1F'
  || c == '\x85' || c == '\xA0' || c.toNat == 0x1680
  || (0x2000 ≤ c.toNat && c.toNat ≤ 0x200A)
  || c.toNat == 0x2028 || c.toNat == 0x2029 || c.toNat == 0x202F || c.toNat == 0x205F || c.toNat == 0x3000

/-- ASCII decimal digit (model of regex `\d`). -/
def isDig (c : Char) : Bool := 48 ≤ c.toNat && c.toNat ≤ 57

/-- Numeric value of a digit string (Python `int(...)` on the match group). -/
def natOfDigits (ds : Str) : Nat := ds.foldl (fun a c => a * 10 + (c.toNat - 48)) 0

/-- Python `text.split('\n')`. -/
def splitLines : Str → List Str
  | [] => [[]]
  | c :: cs =>
    if c == '\n' then [] :: splitLines cs
    else
      match splitLines cs with
      | [] => [[c]]
      | l :: ls => (c :: l) :: ls

/-- Python `sep.join(parts)`. -/
def joinSep (sep : Str) : List Str → Str
  | [] => []
  | [x] => x
  | x :: xs => x ++ sep ++ joinSep sep xs

/-- Python `text.split('\n\n')` (leftmost, non-overlapping). -/
def splitOn2 : Str → List Str
  | [] => [[]]
  | [c] => [[c]]
  | a :: b :: rest =>
    if a == '\n' && b == '\n' then [] :: splitOn2 rest
    else
      match splitOn2 (b :: rest) with
      | [] => [[a]]
      | l :: ls => (a :: l) :: ls

/-- Python `text.strip()`. -/
def pyStrip (s : Str) : Str := ((s.dropWhile isWS).reverse.dropWhile isWS).reverse

/-- Text with every whitespace character removed (used to state the
"modulo whitespace" properties). -/
def removeWS (s : Str) : Str := s.filter (fun c => !isWS c)

/-- Does `s` start with `p`? -/
def startsWith : Str → Str → Bool
  | [], _ => true
  | _ :: _, [] => false
  | p :: ps, c :: cs => p == c && startsWith ps cs

/-- Does `s` contain `p` as a contiguous run? -/
def containsSeq (p : Str) : Str → Bool
  | [] => startsWith p []
  | c :: cs => startsWith p (c :: cs) || containsSeq p cs

/-- Model of `re.match(r'^<!--\s*PAGE:\s*(\d+)\s*-->$', line)`: the page number when
the whole line is a page marker.  The character classes of consecutive
pieces are disjoint, so greedy matching is deterministic. -/
def pageMarker (l : Str) : Option Nat :=
  if startsWith (str "<!--") l then
    let r1 := (l.drop 4).dropWhile isWS
    if startsWith (str "PAGE:") r1 then
      let r2 := (r1.drop 5).dropWhile isWS
      let ds := r2.takeWhile isDig
      if ds.isEmpty then none
      else if (r2.dropWhile isDig).dropWhile isWS == str "-->" then
        some (natOfDigits ds)
      else none
    else none
  else none

/-- Model of `re.match(r'^(#{1,4})\s+(.+)$', line)`: header depth and title.
With five or more leading `#` there is no match (the character after the
hashes taken by `#{1,4}` can only be another `#`).  `\s+` is greedy; when
the rest of the line is all whitespace it backtracks so that `.+` keeps
exactly the last character, hence the `getLast?` branch. -/
def headerBody (k : Nat) : Str → Option (Nat × Str)
  | [] => none
  | c :: rest =>
    if isWS c then
      if ((c :: rest).dropWhile isWS).isEmpty then
        match rest with
        | [] => none
        | _ :: _ => some (k, ((c :: rest).getLast?).toList)
      else some (k, (c :: rest).dropWhile isWS)
    else none

def headerMatch (l : Str) : Option (Nat × Str) :=
  if 1 ≤ (l.takeWhile (fun c => c == '#')).length && (l.takeWhile (fun c => c == '#')).length ≤ 4
  then headerBody ((l.takeWhile (fun c => c == '#')).length) (l.dropWhile (fun c => c == '#'))
  else none

/-- The four header-ancestry slots (`current_headers`). -/
structure Headers where
  h1 : Str
  h2 : Str
  h3 : Str
  h4 : Str
deriving DecidableEq

def emptyHeaders : Headers := ⟨[], [], [], []⟩

/-- Set slot `k` (1-based) and clear all deeper slots; `headerMatch`
guarantees `1 ≤ k ≤ 4`, so the catch-all arm is depth 4. -/
def updateHeaders (hs : Headers) (k : Nat) (txt : Str) : Headers :=
  match k with
  | 1 => ⟨txt, [], [], []⟩
  | 2 => ⟨hs.h1, txt, [], []⟩
  | 3 => ⟨hs.h1, hs.h2, txt, []⟩
  | _ => ⟨hs.h1, hs.h2, hs.h3, txt⟩

/-- Python `' > '.join(h for h in headers[:level] if h)`. -/
def contextOf (hs : Headers) (lvl : Nat) : Str :=
  joinSep (str " > ") (([hs.h1, hs.h2, hs.h3, hs.h4].take lvl).filter (fun h => !h.isEmpty))

/-- A parsed section (`_create_section` / the fallback dict).  The source
dict also stores a `headers` copy that nothing ever reads, so it is not
modelled. -/
structure Section where
  context_path : Str
  level : Nat
  content : Str
  page_number : Nat
deriving DecidableEq

/-- An output chunk dict. -/
structure Fragment where
  content : Str
  context : Str
  level : Nat
  page_number : Nat
deriving DecidableEq

/-- Model of `_create_section(headers, level, content_lines, page)`. -/
def mkSection (hs : Headers) (lvl : Nat) (acc : List Str) (page : Nat) : Section :=
  ⟨contextOf hs lvl, lvl, pyStrip (joinSep (str "\n") acc), page⟩

/-- The line loop of `_parse_sections`, carrying the mutable state
(`current_headers`, `current_level`, `current_page_number`,
`current_content`) explicitly. -/
def parseLoop (hs : Headers) (lvl page : Nat) (acc : List Str) : List Str → List Section
  | [] => if acc.isEmpty then [] else [mkSection hs lvl acc page]
  | l :: ls =>
    match pageMarker l with
    | some n =>
      (if acc.isEmpty then [] else [mkSection hs lvl acc page]) ++ parseLoop hs lvl n [] ls
    | none =>
      match headerMatch l with
      | some (k, txt) =>
        (if acc.isEmpty then [] else [mkSection hs lvl acc page])
          ++ parseLoop (updateHeaders hs k txt) k page [] ls
      | none => parseLoop hs lvl page (acc ++ [l]) ls

/-- Model of `_parse_sections(text)`. -/
def parseSections (t : Str) : List Section := parseLoop emptyHeaders 0 1 [] (splitLines t)

/-- Model of `_estimate_tokens(text)`. -/
def estimateTokens (s : Str) : Nat := s.length / 4

/-- The breadcrumb prefix `f"Context: {path}\n\n"`. -/
def crumb (path : Str) : Str := str "Context: " ++ path ++ str "\n\n"

/-- Model of `_build_chunk_with_context(section)`. -/
def buildChunkWithContext (sec : Section) : Str :=
  if sec.context_path.isEmpty then sec.content else crumb sec.context_path ++ sec.content

def isBulletChar (c : Char) : Bool := c == '-' || c == '*' || c == '+'

/-- A line matching `\s*[-*+]\s` entirely inside itself. -/
def bulletClosed (l : Str) : Bool :=
  match l.dropWhile isWS with
  | b :: w :: _ => isBulletChar b && isWS w
  | _ => false

/-- A line that is `\s*[-*+]` so that the trailing `\s` of the pattern can
only be the newline after the line. -/
def bulletOpen (l : Str) : Bool :=
  match l.dropWhile isWS with
  | [b] => isBulletChar b
  | _ => false

/-- A line matching `\s*\d+\.\s` entirely inside itself. -/
def numClosed (l : Str) : Bool :=
  let r := l.dropWhile isWS
  let ds := r.takeWhile isDig
  if ds.isEmpty then false
  else
    match r.drop ds.length with
    | c :: w :: _ => c == '.' && isWS w
    | _ => false

/-- A line that is `\s*\d+\.` so the pattern's trailing `\s` must be the
following newline. -/
def numOpen (l : Str) : Bool :=
  let r := l.dropWhile isWS
  let ds := r.takeWhile isDig
  if ds.isEmpty then false
  else
    match r.drop ds.length with
    | [c] => c == '.'
    | _ => false

/-- Model of `re.search(pat, text, re.MULTILINE)` for the two list patterns, read
per line: the open form needs a following newline, so it does not count on
the last line. -/
def srch (f g : Str → Bool) : List Str → Bool
  | [] => false
  | [l] => f l
  | l :: ls => f l || g l || srch f g ls

/-- Model of `re.search(r'^\s*[-*+]\s', text, re.MULTILINE)`. -/
def hasBullet (t : Str) : Bool := srch bulletClosed bulletOpen (splitLines t)

/-- Model of `re.search(r'^\s*\d+\.\s', text, re.MULTILINE)`. -/
def hasNumbered (t : Str) : Bool := srch numClosed numOpen (splitLines t)

/-- Python `'```' in text`. -/
def hasFence (t : Str) : Bool := containsSeq (str "```") t

/-- Model of `_is_atomic_block(text)`. -/
def isAtomicBlock (cfg : Nat) (t : Str) : Bool :=
  if estimateTokens t > cfg then false
  else hasBullet t || hasNumbered t || hasFence t

/-- The paragraph-packing loop of `_split_large_section`: `cur` is
`current_chunk`, the result is the list of flushed buffers in order. -/
def pack (cfg : Nat) (path : Str) (cur : List Str) : List Str → List (List Str)
  | [] => if cur.isEmpty then [] else [cur]
  | p :: ps =>
    if estimateTokens (crumb path ++ joinSep (str "\n\n") (cur ++ [p])) > cfg && !cur.isEmpty
    then cur :: pack cfg path [p] ps
    else pack cfg path (cur ++ [p]) ps

/-- Model of `_split_large_section(section)`. -/
def splitLargeSection (cfg : Nat) (sec : Section) : List Fragment :=
  if isAtomicBlock cfg sec.content then
    [⟨buildChunkWithContext sec, sec.context_path, sec.level, sec.page_number⟩]
  else
    (pack cfg sec.context_path [] (splitOn2 sec.content)).map
      (fun b => ⟨crumb sec.context_path ++ joinSep (str "\n\n") b,
                 sec.context_path, sec.level, sec.page_number⟩)

/-- The per-section body of the loop in `chunk`. -/
def emit (cfg : Nat) (sec : Section) : List Fragment :=
  if estimateTokens (buildChunkWithContext sec) ≤ cfg then
    [⟨buildChunkWithContext sec, sec.context_path, sec.level, sec.page_number⟩]
  else splitLargeSection cfg sec

/-- The section list `chunk` iterates over: the parse, or the
"Document Body" fallback when the parse is empty and the text non-blank. -/
def sectionsOf (t : Str) : List Section :=
  let secs := parseSections t
  if secs.isEmpty && !(pyStrip t).isEmpty then
    [⟨str "Document Body", 1, t, 1⟩]
  else secs

/-- Model of `MarkdownChunker(max_tokens=cfg).chunk(t)`. -/
def chunk (cfg : Nat) (t : Str) : List Fragment :=
  (sectionsOf t).flatMap (emit cfg)

/-- Two adjacent newlines somewhere in the text (a blank-line paragraph
boundary). -/
def hasPair : Str → Bool
  | [] => false
  | [_] => false
  | a :: b :: t => (a == '\n' && b == '\n') || hasPair (b :: t)

/-- Pattern `p` occurs contiguously inside `s`. -/
def occursIn (p s : Str) : Prop := ∃ a b, s = a ++ p ++ b

/-- A line that is neither a page marker nor a header: the parser
accumulates it as content. -/
def plainLine (l : Str) : Bool := (pageMarker l).isNone && (headerMatch l).isNone

/-- The payload (content without breadcrumb) of each fragment a section
contributes, in emission order. -/
def payloadsOf (cfg : Nat) (sec : Section) : List Str :=
  if estimateTokens (buildChunkWithContext sec) ≤ cfg then [sec.content]
  else if isAtomicBlock cfg sec.content then [sec.content]
  else (pack cfg sec.context_path [] (splitOn2 sec.content)).map (joinSep (str "\n\n"))

/-- The fragments' contents are the payloads, each optionally behind its
breadcrumb prefix. -/
def corr : List Fragment → List Str → Prop
  | [], [] => True
  | f :: fs, p :: ps => (f.content = crumb f.context ++ p ∨ f.content = p) ∧ corr fs ps
  | _, _ => False

theorem str_nl : str "\n" = ['\n'] := rfl

theorem str_nn : str "\n\n" = ['\n', '\n'] := rfl

theorem splitLines_ne_nil (s : Str) : splitLines s ≠ [] := by
  cases s with
  | nil => simp [splitLines]
  | cons c cs =>
    simp only [splitLines]
    split
    · simp
    · split <;> simp

theorem splitLines_cons_nl (cs : Str) : splitLines ('\n' :: cs) = [] :: splitLines cs := by
  simp [splitLines]

theorem splitLines_cons_of {c : Char} {cs l : Str} {ls : List Str} (h : ¬ c = '\n')
    (hs : splitLines cs = l :: ls) : splitLines (c :: cs) = (c :: l) :: ls := by
  simp [splitLines, h, hs]

theorem joinSep_splitLines (s : Str) : joinSep (str "\n") (splitLines s) = s := by
  induction s with
  | nil => rfl
  | cons c cs ih =>
    cases hsp : splitLines cs with
    | nil => exact absurd hsp (splitLines_ne_nil cs)
    | cons l ls =>
      rw [hsp] at ih
      by_cases h : c = '\n'
      · subst h
        rw [splitLines_cons_nl, hsp]
        cases ls with
        | nil =>
          simp only [joinSep] at ih ⊢
          rw [ih]
          simp [str_nl]
        | cons l2 ls2 =>
          simp only [joinSep] at ih ⊢
          rw [ih]
          simp [str_nl]
      · rw [splitLines_cons_of h hsp]
        cases ls with
        | nil =>
          simp only [joinSep] at ih ⊢
          simp [ih]
        | cons l2 ls2 =>
          simp only [joinSep] at ih ⊢
          rw [List.cons_append, List.cons_append, ih]

theorem splitLines_no_nl (s : Str) : ∀ l ∈ splitLines s, '\n' ∉ l := by
  induction s with
  | nil => simp [splitLines]
  | cons c cs ih =>
    cases hsp : splitLines cs with
    | nil => exact absurd hsp (splitLines_ne_nil cs)
    | cons l0 ls0 =>
      rw [hsp] at ih
      by_cases h : c = '\n'
      · subst h
        rw [splitLines_cons_nl, hsp]
        intro l hl
        rcases List.mem_cons.mp hl with h1 | h1
        · subst h1; simp
        · exact ih l h1
      · rw [splitLines_cons_of h hsp]
        intro l hl
        rcases List.mem_cons.mp hl with h1 | h1
        · subst h1
          intro hmem
          rcases List.mem_cons.mp hmem with h2 | h2
          · exact h h2.symm
          · exact ih l0 (List.mem_cons_self _ _) h2
        · exact ih l (List.mem_cons_of_mem _ h1)

theorem splitOn2_ne_nil (s : Str) : splitOn2 s ≠ [] := by
  match s with
  | [] => simp [splitOn2]
  | [c] => simp [splitOn2]
  | a :: b :: rest =>
    simp only [splitOn2]
    split
    · simp
    · split <;> simp

theorem splitOn2_cons_pair (rest : Str) : splitOn2 ('\n' :: '\n' :: rest) = [] :: splitOn2 rest := by
  simp [splitOn2]

theorem splitOn2_cons_of {a b : Char} {rest l : Str} {ls : List Str}
    (h : ¬(a = '\n' ∧ b = '\n')) (hs : splitOn2 (b :: rest) = l :: ls) :
    splitOn2 (a :: b :: rest) = (a :: l) :: ls := by
  simp only [splitOn2]
  rw [if_neg (by simpa using h), hs]

theorem joinSep_splitOn2 : ∀ s : Str, joinSep (str "\n\n") (splitOn2 s) = s
  | [] => rfl
  | [_] => rfl
  | a :: b :: rest => by
    have ihtail := joinSep_splitOn2 (b :: rest)
    have ihrest := joinSep_splitOn2 rest
    by_cases h : a = '\n' ∧ b = '\n'
    · obtain ⟨ha, hb⟩ := h
      subst ha; subst hb
      rw [splitOn2_cons_pair]
      cases hsp : splitOn2 rest with
      | nil => exact absurd hsp (splitOn2_ne_nil rest)
      | cons l ls =>
        rw [hsp] at ihrest
        cases ls with
        | nil =>
          simp only [joinSep] at ihrest ⊢
          rw [ihrest]
          simp [str_nn]
        | cons l2 ls2 =>
          simp only [joinSep] at ihrest ⊢
          rw [ihrest]
          simp [str_nn]
    · cases hsp : splitOn2 (b :: rest) with
      | nil => exact absurd hsp (splitOn2_ne_nil _)
      | cons l ls =>
        rw [hsp] at ihtail
        rw [splitOn2_cons_of h hsp]
        cases ls with
        | nil =>
          simp only [joinSep] at ihtail ⊢
          simp [ihtail]
        | cons l2 ls2 =>
          simp only [joinSep] at ihtail ⊢
          rw [List.cons_append, List.cons_append, ihtail]

theorem hasPair_cons_cons (a b : Char) (t : Str) :
    hasPair (a :: b :: t) = ((a == '\n' && b == '\n') || hasPair (b :: t)) := rfl

theorem hasPair_append_iff : ∀ s t : Str,
    hasPair (s ++ t) = true ↔
      (hasPair s = true ∨ hasPair t = true ∨ (s.getLast? = some '\n' ∧ t.head? = some '\n'))
  | [], t => by simp [hasPair]
  | [a], t => by
    cases t with
    | nil => simp [hasPair]
    | cons c t' =>
      have e1 : [a] ++ (c :: t') = a :: c :: t' := rfl
      rw [e1, hasPair_cons_cons, Bool.or_eq_true]
      simp only [hasPair, List.getLast?_singleton, List.head?_cons, Bool.and_eq_true,
        beq_iff_eq, Option.some.injEq]
      simp only [Bool.false_eq_true, false_or]
      tauto
  | a :: b :: s', t => by
    have ih := hasPair_append_iff (b :: s') t
    have e2 : (b :: s') ++ t = b :: (s' ++ t) := rfl
    rw [e2] at ih
    have e1 : (a :: b :: s') ++ t = a :: b :: (s' ++ t) := rfl
    rw [e1, hasPair_cons_cons, hasPair_cons_cons, List.getLast?_cons_cons,
      Bool.or_eq_true, Bool.or_eq_true, ih]
    tauto

theorem hasPair_of_no_nl : ∀ s : Str, '\n' ∉ s → hasPair s = false
  | [], _ => rfl
  | [_], _ => rfl
  | a :: b :: t, h => by
    rw [hasPair_cons_cons]
    have ha : ¬a = '\n' := fun hh => h (hh ▸ List.mem_cons_self ..)
    have hrest : '\n' ∉ b :: t := fun hh => h (List.mem_cons_of_mem _ hh)
    rw [hasPair_of_no_nl (b :: t) hrest]
    simp [ha]

theorem hasPair_occurs {s m : Str} (h : ∃ a b, s = a ++ m ++ b)
    (hs : hasPair s = false) : hasPair m = false := by
  obtain ⟨a, b, rfl⟩ := h
  by_contra hm
  rw [Bool.not_eq_false] at hm
  have h1 : hasPair (a ++ m) = true := (hasPair_append_iff a m).mpr (Or.inr (Or.inl hm))
  have h2 : hasPair (a ++ m ++ b) = true := (hasPair_append_iff (a ++ m) b).mpr (Or.inl h1)
  rw [hs] at h2
  cases h2

theorem splitOn2_of_no_pair : ∀ s : Str, hasPair s = false → splitOn2 s = [s]
  | [], _ => rfl
  | [_], _ => rfl
  | a :: b :: r, h => by
    rw [hasPair_cons_cons, Bool.or_eq_false_iff] at h
    have hne : ¬(a = '\n' ∧ b = '\n') := by
      intro ⟨h1, h2⟩
      subst h1; subst h2
      simp at h
    exact splitOn2_cons_of hne (splitOn2_of_no_pair (b :: r) h.2)

theorem pack_flatten (cfg : Nat) (path : Str) : ∀ (cur : List Str) (ps : List Str),
    (pack cfg path cur ps).flatten = cur ++ ps
  | cur, [] => by
    simp only [pack]
    by_cases h : cur.isEmpty
    · rw [if_pos h]
      simp [List.isEmpty_iff.mp h]
    · rw [if_neg h]
      simp
  | cur, p :: ps => by
    simp only [pack]
    split
    · rw [List.flatten_cons, pack_flatten cfg path [p] ps]
      simp
    · rw [pack_flatten cfg path (cur ++ [p]) ps]
      simp

theorem removeWS_append (a b : Str) : removeWS (a ++ b) = removeWS a ++ removeWS b :=
  List.filter_append ..

theorem removeWS_flatten : ∀ parts : List Str,
    removeWS parts.flatten = (parts.map removeWS).flatten
  | [] => rfl
  | x :: xs => by
    rw [List.flatten_cons, removeWS_append, removeWS_flatten xs, List.map_cons, List.flatten_cons]

theorem removeWS_joinSep {sep : Str} (h : removeWS sep = []) :
    ∀ parts : List Str, removeWS (joinSep sep parts) = removeWS parts.flatten
  | [] => rfl
  | [x] => by simp [joinSep]
  | x :: y :: ys => by
    simp only [joinSep]
    rw [removeWS_append, removeWS_append, h, List.append_nil,
      removeWS_joinSep h (y :: ys)]
    simp [removeWS_append]

theorem removeWS_dropWhile (s : Str) : removeWS (s.dropWhile isWS) = removeWS s := by
  induction s with
  | nil => rfl
  | cons c cs ih =>
    by_cases h : isWS c
    · rw [List.dropWhile_cons_of_pos h, ih]
      simp [removeWS, h]
    · rw [List.dropWhile_cons_of_neg h]

theorem removeWS_reverse (s : Str) : removeWS s.reverse = (removeWS s).reverse :=
  List.filter_reverse ..

theorem removeWS_pyStrip (s : Str) : removeWS (pyStrip s) = removeWS s := by
  unfold pyStrip
  rw [removeWS_reverse, removeWS_dropWhile, removeWS_reverse, removeWS_dropWhile,
    List.reverse_reverse]

theorem pyStrip_occurs (s : Str) : ∃ a b, s = a ++ pyStrip s ++ b := by
  refine ⟨s.takeWhile isWS, (((s.dropWhile isWS).reverse).takeWhile isWS).reverse, ?_⟩
  unfold pyStrip
  rw [List.append_assoc, ← List.reverse_append, List.takeWhile_append_dropWhile,
    List.reverse_reverse, List.takeWhile_append_dropWhile]

theorem parseLoop_all_plain : ∀ (lines : List Str) (hs : Headers) (lvl page : Nat) (acc : List Str),
    (∀ l ∈ lines, plainLine l = true) →
    parseLoop hs lvl page acc lines =
      if (acc ++ lines).isEmpty then [] else [mkSection hs lvl (acc ++ lines) page]
  | [], hs, lvl, page, acc, _ => by simp [parseLoop]
  | l :: ls, hs, lvl, page, acc, h => by
    have hl := h l (List.mem_cons_self ..)
    have hls : ∀ x ∈ ls, plainLine x = true := fun x hx => h x (List.mem_cons_of_mem _ hx)
    simp only [plainLine, Bool.and_eq_true, Option.isNone_iff_eq_none] at hl
    simp only [parseLoop, hl.1, hl.2]
    rw [parseLoop_all_plain ls hs lvl page (acc ++ [l]) hls]
    have e : (acc ++ [l]) ++ ls = acc ++ l :: ls := by simp
    rw [e]

theorem parseLoop_no_content : ∀ (lines : List Str) (hs : Headers) (lvl page : Nat),
    (∀ l ∈ lines, plainLine l = false) →
    parseLoop hs lvl page [] lines = []
  | [], _, _, _, _ => by simp [parseLoop]
  | l :: ls, hs, lvl, page, h => by
    have hl := h l (List.mem_cons_self ..)
    have hls : ∀ x ∈ ls, plainLine x = false := fun x hx => h x (List.mem_cons_of_mem _ hx)
    cases hpm : pageMarker l with
    | some n =>
      simp only [parseLoop, hpm]
      simpa using parseLoop_no_content ls hs lvl n hls
    | none =>
      cases hhm : headerMatch l with
      | some kt =>
        simp only [parseLoop, hpm, hhm]
        simpa using parseLoop_no_content ls (updateHeaders hs kt.1 kt.2) kt.1 page hls
      | none =>
        rw [plainLine, hpm, hhm] at hl
        simp at hl

theorem headerBody_fst {k k' : Nat} {tail txt : Str}
    (h : headerBody k tail = some (k', txt)) : k' = k := by
  unfold headerBody at h
  repeat' split at h
  all_goals
    first
      | rfl
      | cases h
  all_goals rfl

theorem headerMatch_bounds {l : Str} {k : Nat} {txt : Str}
    (h : headerMatch l = some (k, txt)) : 1 ≤ k ∧ k ≤ 4 := by
  unfold headerMatch at h
  split at h
  case isFalse => cases h
  case isTrue hg =>
    simp only [Bool.and_eq_true, decide_eq_true_eq] at hg
    rw [headerBody_fst h]
    exact hg

theorem mkSection_level (hs : Headers) (lvl page : Nat) (acc : List Str) :
    (mkSection hs lvl acc page).level = lvl := rfl

theorem mkSection_page (hs : Headers) (lvl page : Nat) (acc : List Str) :
    (mkSection hs lvl acc page).page_number = page := rfl

theorem parseLoop_inv : ∀ (lines : List Str) (hs : Headers) (lvl page : Nat) (acc : List Str),
    (∀ l ∈ lines, ∀ n, pageMarker l = some n → 1 ≤ n) →
    lvl ≤ 4 → 1 ≤ page →
    ∀ sec ∈ parseLoop hs lvl page acc lines, sec.level ≤ 4 ∧ 1 ≤ sec.page_number
  | [], hs, lvl, page, acc, _, hlvl, hpage, sec, hsec => by
    simp only [parseLoop] at hsec
    split at hsec
    · cases hsec
    · rw [List.mem_singleton] at hsec
      subst hsec
      exact ⟨hlvl, hpage⟩
  | l :: ls, hs, lvl, page, acc, hm, hlvl, hpage, sec, hsec => by
    have hml := hm l (List.mem_cons_self ..)
    have hmls : ∀ x ∈ ls, ∀ n, pageMarker x = some n → 1 ≤ n :=
      fun x hx => hm x (List.mem_cons_of_mem _ hx)
    cases hpm : pageMarker l with
    | some n =>
      simp only [parseLoop, hpm] at hsec
      rw [List.mem_append] at hsec
      rcases hsec with h1 | h1
      · split at h1
        · cases h1
        · rw [List.mem_singleton] at h1
          subst h1
          exact ⟨hlvl, hpage⟩
      · exact parseLoop_inv ls hs lvl n [] hmls hlvl (hml n hpm) sec h1
    | none =>
      cases hhm : headerMatch l with
      | some kt =>
        obtain ⟨k, txt⟩ := kt
        simp only [parseLoop, hpm, hhm] at hsec
        rw [List.mem_append] at hsec
        rcases hsec with h1 | h1
        · split at h1
          · cases h1
          · rw [List.mem_singleton] at h1
            subst h1
            exact ⟨hlvl, hpage⟩
        · exact parseLoop_inv ls (updateHeaders hs k txt) k page [] hmls
            (headerMatch_bounds hhm).2 hpage sec h1
      | none =>
        simp only [parseLoop, hpm, hhm] at hsec
        exact parseLoop_inv ls hs lvl page (acc ++ [l]) hmls hlvl hpage sec hsec

theorem flush_ws (hs : Headers) (lvl page : Nat) (acc : List Str) :
    removeWS (((if acc.isEmpty then ([] : List Section) else [mkSection hs lvl acc page]).map
        Section.content).flatten) = removeWS acc.flatten := by
  by_cases h : acc.isEmpty
  · rw [if_pos h, List.isEmpty_iff.mp h]
    rfl
  · rw [if_neg h]
    simp only [List.map_cons, List.map_nil, List.flatten_cons, List.flatten_nil, List.append_nil]
    rw [show (mkSection hs lvl acc page).content = pyStrip (joinSep (str "\n") acc) from rfl]
    rw [removeWS_pyStrip, removeWS_joinSep (by decide) acc]

theorem parseLoop_content : ∀ (lines : List Str) (hs : Headers) (lvl page : Nat) (acc : List Str),
    removeWS (((parseLoop hs lvl page acc lines).map Section.content).flatten)
      = removeWS (acc.flatten ++ (lines.filter plainLine).flatten)
  | [], hs, lvl, page, acc => by
    have := flush_ws hs lvl page acc
    simp only [parseLoop]
    simpa using this
  | l :: ls, hs, lvl, page, acc => by
    cases hpm : pageMarker l with
    | some n =>
      have hpl : plainLine l = false := by simp [plainLine, hpm]
      simp only [parseLoop, hpm]
      rw [List.map_append, List.flatten_append, removeWS_append, flush_ws,
        parseLoop_content ls hs lvl n [], List.filter_cons_of_neg (by simp [hpl])]
      simp [removeWS_append]
    | none =>
      cases hhm : headerMatch l with
      | some kt =>
        have hpl : plainLine l = false := by simp [plainLine, hpm, hhm]
        simp only [parseLoop, hpm, hhm]
        rw [List.map_append, List.flatten_append, removeWS_append, flush_ws,
          parseLoop_content ls (updateHeaders hs kt.1 kt.2) kt.1 page [],
          List.filter_cons_of_neg (by simp [hpl])]
        simp [removeWS_append]
      | none =>
        have hpl : plainLine l = true := by simp [plainLine, hpm, hhm]
        simp only [parseLoop, hpm, hhm]
        rw [parseLoop_content ls hs lvl page (acc ++ [l]),
          List.filter_cons_of_pos (by simp [hpl])]
        simp [removeWS_append, List.flatten_append, List.append_assoc]

theorem parseLoop_ne_nil : ∀ (lines : List Str) (hs : Headers) (lvl page : Nat) (acc : List Str),
    (acc ≠ [] ∨ ∃ l ∈ lines, plainLine l = true) → parseLoop hs lvl page acc lines ≠ []
  | [], hs, lvl, page, acc, h => by
    rcases h with h | h
    · simp only [parseLoop]
      rw [if_neg (by simpa using h)]
      simp
    · simp at h
  | l :: ls, hs, lvl, page, acc, h => by
    cases hpm : pageMarker l with
    | some n =>
      simp only [parseLoop, hpm]
      rcases h with h | h
      · intro hc
        rcases List.append_eq_nil.mp hc with ⟨h1, _⟩
        rw [if_neg (by simpa using h)] at h1
        cases h1
      · obtain ⟨x, hx, hpx⟩ := h
        rcases List.mem_cons.mp hx with rfl | hx2
        · rw [plainLine, hpm] at hpx
          simp at hpx
        · intro hc
          rcases List.append_eq_nil.mp hc with ⟨_, h2⟩
          exact parseLoop_ne_nil ls hs lvl n [] (Or.inr ⟨x, hx2, hpx⟩) h2
    | none =>
      cases hhm : headerMatch l with
      | some kt =>
        simp only [parseLoop, hpm, hhm]
        rcases h with h | h
        · intro hc
          rcases List.append_eq_nil.mp hc with ⟨h1, _⟩
          rw [if_neg (by simpa using h)] at h1
          cases h1
        · obtain ⟨x, hx, hpx⟩ := h
          rcases List.mem_cons.mp hx with rfl | hx2
          · rw [plainLine, hpm, hhm] at hpx
            simp at hpx
          · intro hc
            rcases List.append_eq_nil.mp hc with ⟨_, h2⟩
            exact parseLoop_ne_nil ls (updateHeaders hs kt.1 kt.2) kt.1 page []
              (Or.inr ⟨x, hx2, hpx⟩) h2
      | none =>
        simp only [parseLoop, hpm, hhm]
        exact parseLoop_ne_nil ls hs lvl page (acc ++ [l]) (Or.inl (by simp))

theorem emit_meta {cfg : Nat} {sec : Section} {f : Fragment} (h : f ∈ emit cfg sec) :
    f.context = sec.context_path ∧ f.level = sec.level ∧ f.page_number = sec.page_number := by
  unfold emit splitLargeSection at h
  split at h
  · rw [List.mem_singleton] at h
    subst h
    exact ⟨rfl, rfl, rfl⟩
  · split at h
    · rw [List.mem_singleton] at h
      subst h
      exact ⟨rfl, rfl, rfl⟩
    · rw [List.mem_map] at h
      obtain ⟨b, _, rfl⟩ := h
      exact ⟨rfl, rfl, rfl⟩

theorem emit_corr (cfg : Nat) (sec : Section) : corr (emit cfg sec) (payloadsOf cfg sec) := by
  unfold emit payloadsOf splitLargeSection
  by_cases h1 : estimateTokens (buildChunkWithContext sec) ≤ cfg
  · rw [if_pos h1, if_pos h1]
    refine ⟨?_, trivial⟩
    by_cases h2 : sec.context_path.isEmpty
    · right
      simp [buildChunkWithContext, h2]
    · left
      simp [buildChunkWithContext, h2]
  · rw [if_neg h1, if_neg h1]
    by_cases h2 : isAtomicBlock cfg sec.content
    · rw [if_pos h2, if_pos h2]
      refine ⟨?_, trivial⟩
      by_cases h3 : sec.context_path.isEmpty
      · right
        simp [buildChunkWithContext, h3]
      · left
        simp [buildChunkWithContext, h3]
    · rw [if_neg h2, if_neg h2]
      generalize pack cfg sec.context_path [] (splitOn2 sec.content) = bs
      induction bs with
      | nil => trivial
      | cons b bs ih => exact ⟨Or.inl rfl, ih⟩

theorem corr_append : ∀ {fs : List Fragment} {ps : List Str} {fs' : List Fragment} {ps' : List Str},
    corr fs ps → corr fs' ps' → corr (fs ++ fs') (ps ++ ps')
  | [], [], _, _, _, h2 => h2
  | _ :: _, [], _, _, h1, _ => h1.elim
  | [], _ :: _, _, _, h1, _ => h1.elim
  | _ :: fs, _ :: ps, _, _, h1, h2 => ⟨h1.1, corr_append h1.2 h2⟩

theorem removeWS_map_joinSep : ∀ bs : List (List Str),
    removeWS ((bs.map (joinSep (str "\n\n"))).flatten) = removeWS (bs.flatten.flatten)
  | [] => rfl
  | b :: bs => by
    rw [List.map_cons, List.flatten_cons, removeWS_append, removeWS_joinSep (by decide) b,
      removeWS_map_joinSep bs, List.flatten_cons, List.flatten_append, removeWS_append]

theorem payloadsOf_ws (cfg : Nat) (sec : Section) :
    removeWS (payloadsOf cfg sec).flatten = removeWS sec.content := by
  unfold payloadsOf
  by_cases h1 : estimateTokens (buildChunkWithContext sec) ≤ cfg
  · rw [if_pos h1]
    simp
  · rw [if_neg h1]
    by_cases h2 : isAtomicBlock cfg sec.content
    · rw [if_pos h2]
      simp
    · rw [if_neg h2]
      rw [removeWS_map_joinSep, pack_flatten]
      rw [List.nil_append]
      have h3 := @removeWS_joinSep (str "\n\n") (by decide) (splitOn2 sec.content)
      rw [joinSep_splitOn2] at h3
      exact h3.symm

theorem corr_flatMap (cfg : Nat) : ∀ secs : List Section,
    corr (secs.flatMap (emit cfg)) ((secs.map (payloadsOf cfg)).flatten)
  | [] => trivial
  | s :: ss => by
    rw [List.flatMap_cons, List.map_cons, List.flatten_cons]
    exact corr_append (emit_corr cfg s) (corr_flatMap cfg ss)

theorem payloads_ws_flat (cfg : Nat) : ∀ secs : List Section,
    removeWS ((secs.map (payloadsOf cfg)).flatten.flatten)
      = removeWS ((secs.map Section.content).flatten)
  | [] => rfl
  | s :: ss => by
    rw [List.map_cons, List.flatten_cons, List.flatten_append, removeWS_append, payloadsOf_ws,
      payloads_ws_flat cfg ss, List.map_cons, List.flatten_cons, removeWS_append]

theorem sectionsOf_eq_parse {t : Str} (h : ∃ l ∈ splitLines t, plainLine l = true) :
    sectionsOf t = parseSections t := by
  unfold sectionsOf
  have h1 := parseLoop_ne_nil (splitLines t) emptyHeaders 0 1 [] (Or.inr h)
  rw [show parseLoop emptyHeaders 0 1 [] (splitLines t) = parseSections t from rfl] at h1
  have h2 : (parseSections t).isEmpty = false := by
    rw [List.isEmpty_eq_false]
    exact h1
  simp [h2]

theorem occursIn_self (L : Str) : occursIn L L := ⟨[], [], by simp⟩

theorem occursIn_cons (c : Char) {L s : Str} (h : occursIn L s) : occursIn L (c :: s) := by
  obtain ⟨a, b, rfl⟩ := h
  exact ⟨c :: a, b, rfl⟩

theorem occursIn_append_left (z : Str) {L s : Str} (h : occursIn L s) : occursIn L (z ++ s) := by
  obtain ⟨a, b, rfl⟩ := h
  exact ⟨z ++ a, b, by simp⟩

theorem occursIn_append_right (z : Str) {L s : Str} (h : occursIn L s) : occursIn L (s ++ z) := by
  obtain ⟨a, b, rfl⟩ := h
  exact ⟨a, b ++ z, by simp⟩

theorem occursIn_trans {x y z : Str} (h1 : occursIn x y) (h2 : occursIn y z) : occursIn x z := by
  obtain ⟨a, b, rfl⟩ := h1
  obtain ⟨c, d, rfl⟩ := h2
  exact ⟨c ++ a, b ++ d, by simp⟩

theorem joinSep_occurs (sep : Str) : ∀ {x : Str} {parts : List Str}, x ∈ parts →
    occursIn x (joinSep sep parts)
  | x, [], h => absurd h (List.not_mem_nil x)
  | x, p :: parts, h => by
    rcases List.mem_cons.mp h with rfl | h2
    · cases parts with
      | nil => exact occursIn_self x
      | cons q qs =>
        simp only [joinSep]
        exact occursIn_append_right _ (occursIn_append_right _ (occursIn_self x))
    · have hrec := joinSep_occurs sep h2
      cases parts with
      | nil => cases h2
      | cons q qs =>
        simp only [joinSep]
        rw [List.append_assoc]
        exact occursIn_append_left _ (occursIn_append_left _ hrec)

theorem joinSep_head {sep : Str} : ∀ {l : Str} {ls : List Str}, l ≠ [] →
    (joinSep sep (l :: ls)).head? = l.head?
  | l, [], _ => rfl
  | [], _ :: _, h => absurd rfl h
  | c :: l', q :: qs, _ => by simp [joinSep]

theorem mem_joinSep_mem (sep : Str) {c : Char} {x : Str} {parts : List Str}
    (hx : x ∈ parts) (hc : c ∈ x) : c ∈ joinSep sep parts := by
  obtain ⟨a, b, he⟩ := joinSep_occurs sep hx
  rw [he]
  simp only [List.mem_append]
  exact Or.inl (Or.inr hc)

theorem hasPair_joinSep_nl : ∀ lines : List Str,
    (∀ l ∈ lines, l ≠ [] ∧ '\n' ∉ l) → hasPair (joinSep (str "\n") lines) = false
  | [], _ => rfl
  | [l], h => hasPair_of_no_nl l (h l (List.mem_cons_self ..)).2
  | l :: l2 :: ls, h => by
    have hl := h l (List.mem_cons_self ..)
    have hl2 := h l2 (List.mem_cons_of_mem _ (List.mem_cons_self ..))
    have hrest : ∀ x ∈ l2 :: ls, x ≠ [] ∧ '\n' ∉ x :=
      fun x hx => h x (List.mem_cons_of_mem _ hx)
    have ih := hasPair_joinSep_nl (l2 :: ls) hrest
    simp only [joinSep]
    rw [Bool.eq_false_iff]
    intro hcontra
    rcases (hasPair_append_iff (l ++ str "\n") (joinSep (str "\n") (l2 :: ls))).mp hcontra
      with h1 | h1 | ⟨_, h2⟩
    · rcases (hasPair_append_iff l (str "\n")).mp h1 with g1 | g1 | ⟨g2, _⟩
      · rw [hasPair_of_no_nl l hl.2] at g1
        cases g1
      · cases g1
      · exact hl.2 (List.mem_of_mem_getLast? g2)
    · rw [ih] at h1
      cases h1
    · rw [joinSep_head hl2.1] at h2
      cases hx : l2 with
      | nil => exact hl2.1 hx
      | cons c cs =>
        rw [hx] at h2
        simp only [List.head?_cons, Option.some.injEq] at h2
        exact hl2.2 (h2 ▸ hx ▸ List.mem_cons_self ..)

theorem pyStrip_ne_nil {t : Str} (h : ∃ c ∈ t, isWS c = false) : pyStrip t ≠ [] := by
  intro hc
  have h1 : removeWS (pyStrip t) = removeWS t := removeWS_pyStrip t
  rw [hc] at h1
  obtain ⟨c, hct, hcw⟩ := h
  have : c ∈ removeWS t := List.mem_filter.mpr ⟨hct, by simp [hcw]⟩
  rw [← h1] at this
  cases this

theorem pageMarker_head {l : Str} {n : Nat} (h : pageMarker l = some n) :
    ∃ tl, l = '<' :: tl := by
  unfold pageMarker at h
  split at h
  case isFalse => cases h
  case isTrue hg =>
    cases l with
    | nil => cases hg
    | cons c cs =>
      refine ⟨cs, ?_⟩
      have : ('<' == c) = true := by
        simp only [str, startsWith] at hg
        exact (Bool.and_eq_true_iff.mp hg).1
      rw [show c = '<' from (eq_of_beq this).symm]

theorem headerMatch_head {l : Str} {k : Nat} {txt : Str} (h : headerMatch l = some (k, txt)) :
    ∃ tl, l = '#' :: tl := by
  unfold headerMatch at h
  split at h
  case isFalse => cases h
  case isTrue hg =>
    simp only [Bool.and_eq_true, decide_eq_true_eq] at hg
    cases l with
    | nil => simp at hg
    | cons c cs =>
      refine ⟨cs, ?_⟩
      by_cases hc : c = '#'
      · rw [hc]
      · rw [List.takeWhile_cons_of_neg (by simp [hc])] at hg
        simp at hg

theorem splitOn2_prefix : ∀ (L B : Str), hasPair L = false → L.getLast? ≠ some '\n' →
    ∃ l ls, splitOn2 B = l :: ls ∧ splitOn2 (L ++ B) = (L ++ l) :: ls
  | [], B, _, _ => by
    cases hsp : splitOn2 B with
    | nil => exact absurd hsp (splitOn2_ne_nil B)
    | cons l ls => exact ⟨l, ls, rfl, by simpa using hsp⟩
  | [c], B, _, hlast => by
    have hc : ¬ c = '\n' := by simpa using hlast
    cases B with
    | nil => exact ⟨[], [], rfl, by simp [splitOn2]⟩
    | cons b B' =>
      cases hsp : splitOn2 (b :: B') with
      | nil => exact absurd hsp (splitOn2_ne_nil _)
      | cons l ls =>
        refine ⟨l, ls, rfl, ?_⟩
        have := splitOn2_cons_of (a := c) (fun hh => hc hh.1) hsp
        simpa using this
  | c :: d :: L', B, hpair, hlast => by
    rw [hasPair_cons_cons, Bool.or_eq_false_iff] at hpair
    have hcd : ¬(c = '\n' ∧ d = '\n') := by
      intro ⟨h1, h2⟩
      subst h1; subst h2
      simp at hpair
    have hlast' : (d :: L').getLast? ≠ some '\n' := by
      rwa [show ((c :: d :: L').getLast? = (d :: L').getLast?) from List.getLast?_cons_cons ..]
        at hlast
    obtain ⟨l, ls, hB, hLB⟩ := splitOn2_prefix (d :: L') B hpair.2 hlast'
    refine ⟨l, ls, hB, ?_⟩
    have e1 : (d :: L') ++ B = d :: (L' ++ B) := rfl
    rw [e1] at hLB
    have := splitOn2_cons_of (a := c) hcd hLB
    simpa using this

theorem splitOn2_occurs_fuel : ∀ (n : Nat) (A L B : Str), A.length ≤ n → hasPair L = false →
    L ≠ [] → L.head? ≠ some '\n' → L.getLast? ≠ some '\n' →
    ∃ part ∈ splitOn2 (A ++ L ++ B), occursIn L part
  | n, [], L, B, _, hp, hne, hh, hl => by
    obtain ⟨l, ls, _, hLB⟩ := splitOn2_prefix L B hp hl
    rw [List.nil_append, hLB]
    exact ⟨L ++ l, List.mem_cons_self .., ⟨[], l, by simp⟩⟩
  | Nat.succ n, a :: A', L, B, hlen, hp, hne, hh, hl => by
    cases A' with
    | nil =>
      obtain ⟨l0, ls0, _, hLB⟩ := splitOn2_prefix L B hp hl
      cases L with
      | nil => exact absurd rfl hne
      | cons x L'' =>
        have hx : ¬ x = '\n' := by simpa using hh
        have e1 : (x :: L'') ++ B = x :: (L'' ++ B) := rfl
        rw [e1] at hLB
        have hstep := splitOn2_cons_of (a := a) (fun hh2 => hx hh2.2) hLB
        have e2 : [a] ++ (x :: L'') ++ B = a :: x :: (L'' ++ B) := rfl
        rw [e2, hstep]
        exact ⟨a :: ((x :: L'') ++ l0), List.mem_cons_self ..,
          ⟨[a], l0, by simp⟩⟩
    | cons a2 A'' =>
      have hlen2 : (a2 :: A'').length ≤ n := by
        simpa using Nat.le_of_succ_le_succ (by simpa using hlen)
      by_cases hcd : a = '\n' ∧ a2 = '\n'
      · obtain ⟨rfl, rfl⟩ := hcd
        have hlen3 : A''.length ≤ n := le_trans (by simp) hlen2
        obtain ⟨part, hmem, hocc⟩ := splitOn2_occurs_fuel n A'' L B hlen3 hp hne hh hl
        have e1 : ('\n' :: '\n' :: A'') ++ L ++ B = '\n' :: '\n' :: (A'' ++ L ++ B) := by simp
        rw [e1, splitOn2_cons_pair]
        exact ⟨part, List.mem_cons_of_mem _ hmem, hocc⟩
      · obtain ⟨part, hmem, hocc⟩ :=
          splitOn2_occurs_fuel n (a2 :: A'') L B hlen2 hp hne hh hl
        have e1 : (a2 :: A'') ++ L ++ B = a2 :: (A'' ++ L ++ B) := by simp
        rw [e1] at hmem
        cases hsp : splitOn2 (a2 :: (A'' ++ L ++ B)) with
        | nil => exact absurd hsp (splitOn2_ne_nil _)
        | cons l ls =>
          have hstep := splitOn2_cons_of (a := a) hcd hsp
          have e2 : (a :: a2 :: A'') ++ L ++ B = a :: a2 :: (A'' ++ L ++ B) := by simp
          rw [e2, hstep]
          rw [hsp] at hmem
          rcases List.mem_cons.mp hmem with rfl | h2
          · exact ⟨a :: part, List.mem_cons_self .., occursIn_cons a hocc⟩
          · exact ⟨part, List.mem_cons_of_mem _ h2, hocc⟩

theorem splitOn2_occurs {A L B : Str} (hp : hasPair L = false) (hne : L ≠ [])
    (hh : L.head? ≠ some '\n') (hl : L.getLast? ≠ some '\n') :
    ∃ part ∈ splitOn2 (A ++ L ++ B), occursIn L part :=
  splitOn2_occurs_fuel A.length A L B (Nat.le_refl _) hp hne hh hl

theorem pack_single (cfg : Nat) (path : Str) (p : Str) : pack cfg path [] [p] = [[p]] := by
  unfold pack
  rw [if_neg (by simp)]
  unfold pack
  simp

theorem parseSections_plain {t : Str} (hplain : ∀ l ∈ splitLines t, plainLine l = true) :
    parseSections t = [⟨[], 0, pyStrip t, 1⟩] := by
  unfold parseSections
  rw [parseLoop_all_plain (splitLines t) emptyHeaders 0 1 [] hplain, List.nil_append,
    if_neg (by simp [List.isEmpty_eq_false.mpr (splitLines_ne_nil t)])]
  unfold mkSection
  rw [joinSep_splitLines]
  rfl

theorem sectionsOf_plain {t : Str} (hplain : ∀ l ∈ splitLines t, plainLine l = true) :
    sectionsOf t = [⟨[], 0, pyStrip t, 1⟩] := by
  unfold sectionsOf
  rw [parseSections_plain hplain]
  simp

theorem chunk_plain_small {cfg : Nat} {s : Str} (hplain : ∀ l ∈ splitLines s, plainLine l = true)
    (hstrip : pyStrip s = s) (hfit : estimateTokens s ≤ cfg) :
    chunk cfg s = [⟨s, [], 0, 1⟩] := by
  have hsec : sectionsOf s = [⟨[], 0, s, 1⟩] := by
    rw [sectionsOf_plain hplain, hstrip]
  unfold chunk
  rw [hsec, List.flatMap_cons, List.flatMap_nil, List.append_nil]
  unfold emit
  rw [show buildChunkWithContext ⟨[], 0, s, 1⟩ = s from rfl, if_pos hfit]

theorem chunk_plain_big {cfg : Nat} {s : Str} (hplain : ∀ l ∈ splitLines s, plainLine l = true)
    (hnopair : hasPair s = false) (hover : cfg < estimateTokens (pyStrip s)) :
    chunk cfg s = [⟨crumb [] ++ pyStrip s, [], 0, 1⟩] := by
  have hsec : sectionsOf s = [⟨[], 0, pyStrip s, 1⟩] := sectionsOf_plain hplain
  unfold chunk
  rw [hsec, List.flatMap_cons, List.flatMap_nil, List.append_nil]
  unfold emit
  rw [show buildChunkWithContext ⟨[], 0, pyStrip s, 1⟩ = pyStrip s from rfl,
    if_neg (Nat.not_le.mpr hover)]
  unfold splitLargeSection
  have hat : isAtomicBlock cfg (pyStrip s) = false := by
    unfold isAtomicBlock
    rw [if_pos hover]
  rw [show (⟨[], 0, pyStrip s, 1⟩ : Section).content = pyStrip s from rfl, hat]
  rw [if_neg (by simp)]
  rw [splitOn2_of_no_pair (pyStrip s) (hasPair_occurs (pyStrip_occurs s) hnopair), pack_single]
  rfl

/-- C1 (counterexample): on the empty string the chunker does NOT return an
empty fragment list; the parser accumulates the single empty line, so one
empty-content fragment comes back. -/
theorem C1_counterexample : chunk 512 (str "") ≠ [] := by decide

/-- C1 (amended): for the empty input string the chunking operation returns
exactly one fragment, with empty content, empty context path, level 0 and
page number 1 (for every token budget). -/
theorem C1_empty_singleton (cfg : Nat) : chunk cfg (str "") = [⟨[], [], 0, 1⟩] :=
  chunk_plain_small (by decide) (by decide) (Nat.zero_le cfg)

/-- C3 (counterexample): the headerless non-blank input "hello" parses to
one Section with EMPTY context path and level 0 (not "Document Body" and
level 1), and a headerless input with a page marker parses to TWO
Sections, so the claim fails both on the context/level and on the
exactly-one count. -/
theorem C3_counterexample :
    parseSections (str "hello") = [⟨[], 0, str "hello", 1⟩] ∧
    ([] : Str) ≠ str "Document Body" ∧ (0 : Nat) ≠ 1 ∧
    (parseSections (str "a\n<!-- PAGE: 2 -->\nb")).length = 2 := by
  refine ⟨by decide, by decide, by decide, by decide⟩

/-- C3 (amended): for every non-blank input in which no line is a header or
a page marker, the parse produces exactly one Section, with empty context
path, level 0, content the stripped input, and page number 1 (the
"Document Body" fallback never fires because this Section already
exists). -/
theorem C3_headerless_single_section (t : Str)
    (hplain : ∀ l ∈ splitLines t, plainLine l = true) (hnb : pyStrip t ≠ []) :
    parseSections t = [⟨[], 0, pyStrip t, 1⟩] :=
  parseSections_plain hplain

/-- C3 (witness). -/
theorem C3_witness : parseSections (str "hello") = [⟨[], 0, pyStrip (str "hello"), 1⟩] :=
  C3_headerless_single_section (str "hello") (by decide) (by decide)

/-- C9 (counterexample): the fragment produced from "hello" is already
minimal (fits any budget, no headers) and re-chunking its exact content
text yields that same fragment back, but its context path is empty, not
"Document Body" as the claim requires. -/
theorem C9_counterexample :
    chunk 512 (str "hello") = [⟨str "hello", [], 0, 1⟩] ∧
    ([] : Str) ≠ str "Document Body" := by
  refine ⟨by decide, by decide⟩

/-- C9 (amended): re-chunking the exact content text of an already-minimal
fragment (content within the token budget, no header or page-marker lines,
and whitespace-trimmed, as whole-section contents are) yields exactly that
one fragment back, with EMPTY context, level 0 and page number 1. -/
theorem C9_rechunk_minimal (cfg : Nat) (s : Str)
    (hplain : ∀ l ∈ splitLines s, plainLine l = true)
    (hstrip : pyStrip s = s) (hfit : estimateTokens s ≤ cfg) :
    chunk cfg s = [⟨s, [], 0, 1⟩] :=
  chunk_plain_small hplain hstrip hfit

/-- C9 (witness). -/
theorem C9_witness : chunk 512 (str "hi") = [⟨str "hi", [], 0, 1⟩] :=
  C9_rechunk_minimal 512 (str "hi") (by decide) (by decide) (by decide)

set_option maxRecDepth 8000 in
/-- C5 (counterexample): a 500-character headerless single paragraph with
token budget 100 (so its 125-token estimate exceeds the budget) produces
exactly ONE oversized fragment, not more than one as the claim states —
splitting granularity stops at paragraph boundaries. -/
theorem C5_counterexample : ¬ 1 < (chunk 100 (List.replicate 500 'a')).length := by
  have h := @chunk_plain_big 100 (List.replicate 500 'a') (by decide) (by decide) (by decide)
  rw [h]
  decide

/-- C5 (amended): with the token budget configured so that a headerless
plain paragraph (no blank-line boundaries, no header or page-marker lines)
exceeds it, the chunking operation returns exactly ONE oversized fragment
(the known degradation of §7: completeness over budget compliance), and
trivially every returned fragment has the same context (empty), level (0)
and page number (1). -/
theorem C5_oversized_paragraph_single (cfg : Nat) (s : Str)
    (hplain : ∀ l ∈ splitLines s, plainLine l = true)
    (hnopair : hasPair s = false)
    (hover : cfg < estimateTokens (pyStrip s)) :
    chunk cfg s = [⟨crumb [] ++ pyStrip s, [], 0, 1⟩] ∧ (chunk cfg s).length = 1 := by
  have h := chunk_plain_big hplain hnopair hover
  exact ⟨h, by rw [h]; rfl⟩

set_option maxRecDepth 8000 in
/-- C5 (witness). -/
theorem C5_witness :
    chunk 100 (List.replicate 500 'a')
      = [⟨crumb [] ++ pyStrip (List.replicate 500 'a'), [], 0, 1⟩] ∧
    (chunk 100 (List.replicate 500 'a')).length = 1 :=
  C5_oversized_paragraph_single 100 (List.replicate 500 'a') (by decide) (by decide) (by decide)

theorem chunk_all_special {cfg : Nat} {t : Str}
    (hall : ∀ l ∈ splitLines t, plainLine l = false) :
    chunk cfg t = [⟨crumb (str "Document Body") ++ t, str "Document Body", 1, 1⟩] := by
  have hex : ∃ c ∈ t, isWS c = false := by
    cases hsp : splitLines t with
    | nil => exact absurd hsp (splitLines_ne_nil t)
    | cons l ls =>
      have hlmem : l ∈ splitLines t := by
        rw [hsp]
        exact List.mem_cons_self ..
      have hpl := hall l hlmem
      have hchar : ∃ c tl, l = c :: tl ∧ isWS c = false := by
        cases hpm : pageMarker l with
        | some n =>
          obtain ⟨tl, htl⟩ := pageMarker_head hpm
          exact ⟨'<', tl, htl, by decide⟩
        | none =>
          cases hhm : headerMatch l with
          | none =>
            rw [plainLine, hpm, hhm] at hpl
            simp at hpl
          | some kt =>
            obtain ⟨tl, htl⟩ := headerMatch_head
              (show headerMatch l = some (kt.1, kt.2) by rw [hhm])
            exact ⟨'#', tl, htl, by decide⟩
      obtain ⟨c, tl, hltl, hcw⟩ := hchar
      refine ⟨c, ?_, hcw⟩
      have hcl : c ∈ l := by
        rw [hltl]
        exact List.mem_cons_self ..
      have := mem_joinSep_mem (str "\n") hlmem hcl
      rwa [joinSep_splitLines] at this
  have hnb : pyStrip t ≠ [] := pyStrip_ne_nil hex
  have hsec : sectionsOf t = [⟨str "Document Body", 1, t, 1⟩] := by
    simp only [sectionsOf]
    rw [show parseSections t = [] from
      parseLoop_no_content (splitLines t) emptyHeaders 0 1 hall]
    simp [List.isEmpty_eq_false.mpr hnb]
  unfold chunk
  rw [hsec, List.flatMap_cons, List.flatMap_nil, List.append_nil]
  have hb : buildChunkWithContext ⟨str "Document Body", 1, t, 1⟩
      = crumb (str "Document Body") ++ t := by
    unfold buildChunkWithContext
    rw [if_neg (show ¬((str "Document Body" : Str).isEmpty = true) from by decide)]
  unfold emit
  by_cases hfit : estimateTokens (buildChunkWithContext ⟨str "Document Body", 1, t, 1⟩) ≤ cfg
  · rw [if_pos hfit, hb]
  · rw [if_neg hfit]
    unfold splitLargeSection
    by_cases hat : isAtomicBlock cfg (⟨str "Document Body", 1, t, 1⟩ : Section).content = true
    · rw [if_pos hat, hb]
    · rw [if_neg hat]
      have hlne : ∀ l ∈ splitLines t, l ≠ [] ∧ '\n' ∉ l := by
        intro l hl
        refine ⟨?_, splitLines_no_nl t l hl⟩
        intro hnil
        have hpl := hall l hl
        rw [hnil, show plainLine [] = true from by decide] at hpl
        cases hpl
      have hnp : hasPair t = false := by
        have := hasPair_joinSep_nl (splitLines t) hlne
        rwa [joinSep_splitLines] at this
      rw [show (⟨str "Document Body", 1, t, 1⟩ : Section).content = t from rfl,
        splitOn2_of_no_pair t hnp, pack_single]
      rfl

/-- C10 (counterexample): for the all-header input "# A" the single
fallback fragment's content is the raw input PREFIXED with
"Context: Document Body\n\n", not the raw input itself. -/
theorem C10_counterexample :
    chunk 512 (str "# A")
      = [⟨crumb (str "Document Body") ++ str "# A", str "Document Body", 1, 1⟩]
    ∧ crumb (str "Document Body") ++ str "# A" ≠ str "# A" :=
  ⟨by decide, by decide⟩

/-- C10 (amended): for every input in which every line is a header or a
page-marker line (so the parse yields zero Sections and the fallback
fires), the chunker returns exactly one fragment with context
"Document Body", level 1, page number 1, whose content is
"Context: Document Body\n\n" followed by the entire raw input — the header
and page-marker lines appear verbatim inside the fragment content. -/
theorem C10_fallback_fragment (cfg : Nat) (t : Str)
    (hall : ∀ l ∈ splitLines t, plainLine l = false) :
    chunk cfg t = [⟨crumb (str "Document Body") ++ t, str "Document Body", 1, 1⟩] :=
  chunk_all_special hall

/-- C10 (witness). -/
theorem C10_witness :
    chunk 512 (str "# A\n<!-- PAGE: 2 -->\n## B")
      = [⟨crumb (str "Document Body") ++ str "# A\n<!-- PAGE: 2 -->\n## B",
          str "Document Body", 1, 1⟩] :=
  C10_fallback_fragment 512 (str "# A\n<!-- PAGE: 2 -->\n## B") (by decide)

/-- C2 (counterexample): for the input "# A\nb" the single fragment's
content with its breadcrumb prefix removed is just "b"; the header text
"# A" is non-whitespace content of the input that no de-prefixed
concatenation reproduces (and keeping the prefix adds "Context:" text that
is not in the input either). -/
theorem C2_counterexample :
    chunk 512 (str "# A\nb") = [⟨str "Context: A\n\nb", str "A", 1, 1⟩]
    ∧ removeWS (str "b") ≠ removeWS (str "# A\nb")
    ∧ removeWS (str "Context: A\n\nb") ≠ removeWS (str "# A\nb") :=
  ⟨by decide, by decide, by decide⟩

/-- C2 (amended): for every input with at least one ordinary content line,
there is a payload decomposition of the output — each fragment's content
is its payload, optionally behind its breadcrumb prefix — whose ordered
concatenation reproduces, up to whitespace, the input text with its header
and page-marker lines removed (ordinary content is never lost). -/
theorem C2_content_preserved (cfg : Nat) (t : Str)
    (h : ∃ l ∈ splitLines t, plainLine l = true) :
    ∃ ps : List Str, corr (chunk cfg t) ps ∧
      removeWS ps.flatten = removeWS (((splitLines t).filter plainLine).flatten) := by
  refine ⟨((parseSections t).map (payloadsOf cfg)).flatten, ?_, ?_⟩
  · unfold chunk
    rw [sectionsOf_eq_parse h]
    exact corr_flatMap cfg (parseSections t)
  · rw [payloads_ws_flat]
    have h2 := parseLoop_content (splitLines t) emptyHeaders 0 1 []
    rw [show parseLoop emptyHeaders 0 1 [] (splitLines t) = parseSections t from rfl] at h2
    simpa using h2

/-- C2 (witness). -/
theorem C2_witness :
    ∃ ps : List Str, corr (chunk 512 (str "x")) ps ∧
      removeWS ps.flatten = removeWS (((splitLines (str "x")).filter plainLine).flatten) :=
  C2_content_preserved 512 (str "x") ⟨str "x", by decide, by decide⟩

/-- C8 (counterexample): the page marker "<!-- PAGE: 0 -->" is accepted by
the marker pattern with value 0, so the fragment carrying the following
content line has page number 0, which is not a positive integer. -/
theorem C8_counterexample :
    chunk 512 (str "<!-- PAGE: 0 -->\nx") = [⟨str "x", [], 0, 0⟩]
    ∧ ¬ 1 ≤ (0 : Nat) :=
  ⟨by decide, by decide⟩

/-- C8 (amended): for every input whose page-marker lines all carry a
positive page number, every fragment returned by the chunking operation
has a level between 0 and 4 inclusive and a page number that is at
least 1. -/
theorem C8_level_page_bounds (cfg : Nat) (t : Str)
    (hm : ∀ l ∈ splitLines t, ∀ n, pageMarker l = some n → 1 ≤ n) :
    ∀ f ∈ chunk cfg t, f.level ≤ 4 ∧ 1 ≤ f.page_number := by
  intro f hf
  unfold chunk at hf
  rw [List.mem_flatMap] at hf
  obtain ⟨sec, hsec, hmem⟩ := hf
  obtain ⟨_, hl, hp⟩ := emit_meta hmem
  rw [hl, hp]
  simp only [sectionsOf] at hsec
  split at hsec
  · rw [List.mem_singleton] at hsec
    subst hsec
    exact ⟨(by decide : (1 : Nat) ≤ 4), (by decide : (1 : Nat) ≤ 1)⟩
  · exact parseLoop_inv (splitLines t) emptyHeaders 0 1 [] hm (by omega) (by omega) sec hsec

/-- C8 (witness). -/
theorem C8_witness :
    (⟨str "Context: A\n\nbody", str "A", 1, 1⟩ : Fragment).level ≤ 4 ∧
    1 ≤ (⟨str "Context: A\n\nbody", str "A", 1, 1⟩ : Fragment).page_number :=
  C8_level_page_bounds 512 (str "# A\nbody") (by decide)
    ⟨str "Context: A\n\nbody", str "A", 1, 1⟩ (by decide)

/-- C4 (counterexample): on the paragraph-splitting path the breadcrumb
prefix is attached unconditionally, so a headerless oversized document
(empty context path) yields fragments whose content still starts with
"Context: \n\n" instead of the raw content with no prefix. -/
theorem C4_counterexample :
    chunk 1 (str "aaaaaaaa\n\nbbbb")
      = [⟨str "Context: \n\naaaaaaaa", [], 0, 1⟩, ⟨str "Context: \n\nbbbb", [], 0, 1⟩]
    ∧ str "Context: \n\naaaaaaaa" ≠ str "aaaaaaaa" :=
  ⟨by decide, by decide⟩

/-- C4 (amended): every fragment with a non-empty context path carries the
content "Context: <path>\n\n<content>"; when the context path is empty the
whole-section and atomic paths emit the raw content with no prefix
(`_build_chunk_with_context`), but every fragment of the
paragraph-splitting path carries the prefix "Context: <path>\n\n" even
when the path is empty. -/
theorem C4_breadcrumb_prefixing (cfg : Nat) (t : Str) :
    (∀ f ∈ chunk cfg t, f.context ≠ [] → ∃ r, f.content = crumb f.context ++ r)
    ∧ (∀ sec : Section, ∀ f ∈ splitLargeSection cfg sec,
        isAtomicBlock cfg sec.content = false → ∃ r, f.content = crumb sec.context_path ++ r)
    ∧ (∀ sec : Section, buildChunkWithContext sec =
        if sec.context_path = [] then sec.content else crumb sec.context_path ++ sec.content) := by
  refine ⟨?_, ?_, ?_⟩
  · intro f hf hctx
    unfold chunk at hf
    rw [List.mem_flatMap] at hf
    obtain ⟨sec, hsec, hmem⟩ := hf
    unfold emit splitLargeSection at hmem
    split at hmem
    · rw [List.mem_singleton] at hmem
      subst hmem
      refine ⟨sec.content, ?_⟩
      show buildChunkWithContext sec = _
      unfold buildChunkWithContext
      rw [if_neg (fun hh => hctx (List.isEmpty_iff.mp hh))]
    · split at hmem
      · rw [List.mem_singleton] at hmem
        subst hmem
        refine ⟨sec.content, ?_⟩
        show buildChunkWithContext sec = _
        unfold buildChunkWithContext
        rw [if_neg (fun hh => hctx (List.isEmpty_iff.mp hh))]
      · rw [List.mem_map] at hmem
        obtain ⟨b, _, rfl⟩ := hmem
        exact ⟨joinSep (str "\n\n") b, rfl⟩
  · intro sec f hf hat
    unfold splitLargeSection at hf
    rw [hat] at hf
    rw [if_neg (by simp)] at hf
    rw [List.mem_map] at hf
    obtain ⟨b, _, rfl⟩ := hf
    exact ⟨joinSep (str "\n\n") b, rfl⟩
  · intro sec
    unfold buildChunkWithContext
    by_cases h : sec.context_path = []
    · rw [if_pos (List.isEmpty_iff.mpr h), if_pos h]
    · rw [if_neg (fun hh => h (List.isEmpty_iff.mp hh)), if_neg h]

/-- C4 (witness). -/
theorem C4_witness :
    ∃ r, (⟨str "Context: A\n\nbody", str "A", 1, 1⟩ : Fragment).content
      = crumb (⟨str "Context: A\n\nbody", str "A", 1, 1⟩ : Fragment).context ++ r :=
  (C4_breadcrumb_prefixing 512 (str "# A\nbody")).1
    ⟨str "Context: A\n\nbody", str "A", 1, 1⟩ (by decide) (by decide)

/-- C6 (confirmed): for every section whose breadcrumb-prefixed text
exceeds the token budget, the atomic classifier on the raw content returns
"protect" iff the raw content's own token estimate is within the budget
AND the content matches a bullet-list, numbered-list or fenced-code-block
pattern; and when it protects, the splitter emits the breadcrumb-prefixed
whole-section text as exactly one fragment. -/
theorem C6_atomic_classifier (cfg : Nat) (sec : Section)
    (hover : cfg < estimateTokens (buildChunkWithContext sec)) :
    (isAtomicBlock cfg sec.content = true ↔
      (estimateTokens sec.content ≤ cfg ∧
        (hasBullet sec.content = true ∨ hasNumbered sec.content = true ∨
          hasFence sec.content = true)))
    ∧ (isAtomicBlock cfg sec.content = true →
        splitLargeSection cfg sec =
          [⟨buildChunkWithContext sec, sec.context_path, sec.level, sec.page_number⟩]) := by
  constructor
  · unfold isAtomicBlock
    by_cases h : estimateTokens sec.content > cfg
    · rw [if_pos h]
      constructor
      · intro hh
        cases hh
      · intro ⟨h1, _⟩
        omega
    · rw [if_neg h]
      constructor
      · intro hh
        exact ⟨Nat.not_lt.mp h, by simpa [or_assoc] using hh⟩
      · intro ⟨_, h2⟩
        simpa [or_assoc] using h2
  · intro ha
    unfold splitLargeSection
    rw [if_pos ha]

/-- C6 (witness). -/
theorem C6_witness :
    splitLargeSection 3 ⟨str "A", 1, str "- a\n- b", 1⟩
      = [⟨buildChunkWithContext ⟨str "A", 1, str "- a\n- b", 1⟩, str "A", 1, 1⟩] :=
  (C6_atomic_classifier 3 ⟨str "A", 1, str "- a\n- b", 1⟩ (by decide)).2 (by decide)

theorem bulletClosed_ne_nil {l : Str} (h : bulletClosed l = true) : l ≠ [] := by
  intro hn
  rw [hn] at h
  exact absurd h (by decide)

theorem joinSep_getLast (sep : Str) : ∀ (init : List Str) {l : Str}, l ≠ [] →
    (joinSep sep (init ++ [l])).getLast? = l.getLast?
  | [], l, _ => rfl
  | x :: init, l, h => by
    have hlast : (joinSep sep (init ++ [l])).getLast? = l.getLast? :=
      joinSep_getLast sep init h
    have hsome : l.getLast? ≠ none := fun hc => h (List.getLast?_eq_none_iff.mp hc)
    have hRne : joinSep sep (init ++ [l]) ≠ [] := by
      intro hc
      rw [hc] at hlast
      exact hsome hlast.symm
    have e : (x :: init) ++ [l] = x :: (init ++ [l]) := rfl
    rw [e]
    cases hi : init ++ [l] with
    | nil => exact absurd hi (by simp)
    | cons q qs =>
      rw [show joinSep sep (x :: q :: qs) = (x ++ sep) ++ joinSep sep (q :: qs) from rfl]
      rw [List.getLast?_append_of_ne_nil _ (by rw [← hi]; exact hRne)]
      rw [← hi, hlast]

theorem head_ne_nl {l : Str} (hne : l ≠ []) (hnl : '\n' ∉ l) : l.head? ≠ some '\n' := by
  cases l with
  | nil => exact absurd rfl hne
  | cons c cs =>
    intro hc
    rw [List.head?_cons] at hc
    injection hc with hc2
    exact hnl (hc2 ▸ List.mem_cons_self ..)

theorem getLast_ne_nl {l : Str} (hnl : '\n' ∉ l) : l.getLast? ≠ some '\n' :=
  fun hc => hnl (List.mem_of_mem_getLast? hc)

/-- C7 (confirmed): if a section's breadcrumb-prefixed text exceeds the
token budget while it contains a five-line bullet list (five consecutive
bullet lines, no internal blank lines) whose own token estimate is within
the budget, then some single fragment of the output contains the whole
bullet list: the list is never split across two fragments.  Splitting
happens only at blank-line paragraph boundaries, and the list contains
none. -/
theorem C7_bullet_list_never_split (cfg : Nat) (t : Str) (sec : Section)
    (A B l1 l2 l3 l4 l5 : Str)
    (hsec : sec ∈ sectionsOf t)
    (hb1 : bulletClosed l1 = true) (hb2 : bulletClosed l2 = true)
    (hb3 : bulletClosed l3 = true) (hb4 : bulletClosed l4 = true)
    (hb5 : bulletClosed l5 = true)
    (hn1 : '\n' ∉ l1) (hn2 : '\n' ∉ l2) (hn3 : '\n' ∉ l3)
    (hn4 : '\n' ∉ l4) (hn5 : '\n' ∉ l5)
    (hover : cfg < estimateTokens (buildChunkWithContext sec))
    (hunder : estimateTokens (joinSep (str "\n") [l1, l2, l3, l4, l5]) ≤ cfg)
    (hcontent : sec.content = A ++ joinSep (str "\n") [l1, l2, l3, l4, l5] ++ B) :
    ∃ f ∈ chunk cfg t, occursIn (joinSep (str "\n") [l1, l2, l3, l4, l5]) f.content := by
  have hne1 : l1 ≠ [] := bulletClosed_ne_nil hb1
  have hne5 : l5 ≠ [] := bulletClosed_ne_nil hb5
  have hLne : joinSep (str "\n") [l1, l2, l3, l4, l5] ≠ [] := by
    cases hc : l1 with
    | nil => exact absurd hc hne1
    | cons c cs => simp [joinSep]
  have hhead : (joinSep (str "\n") [l1, l2, l3, l4, l5]).head? ≠ some '\n' := by
    rw [joinSep_head hne1]
    exact head_ne_nl hne1 hn1
  have hlast : (joinSep (str "\n") [l1, l2, l3, l4, l5]).getLast? ≠ some '\n' := by
    rw [show ([l1, l2, l3, l4, l5] : List Str) = [l1, l2, l3, l4] ++ [l5] from rfl,
      joinSep_getLast (str "\n") [l1, l2, l3, l4] hne5]
    exact getLast_ne_nl hn5
  have hpair : hasPair (joinSep (str "\n") [l1, l2, l3, l4, l5]) = false := by
    refine hasPair_joinSep_nl [l1, l2, l3, l4, l5] ?_
    intro l hl
    simp only [List.mem_cons, List.not_mem_nil, or_false] at hl
    rcases hl with rfl | rfl | rfl | rfl | rfl
    · exact ⟨hne1, hn1⟩
    · exact ⟨bulletClosed_ne_nil hb2, hn2⟩
    · exact ⟨bulletClosed_ne_nil hb3, hn3⟩
    · exact ⟨bulletClosed_ne_nil hb4, hn4⟩
    · exact ⟨hne5, hn5⟩
  suffices hf : ∃ f ∈ emit cfg sec, occursIn (joinSep (str "\n") [l1, l2, l3, l4, l5]) f.content by
    obtain ⟨f, hfm, hfo⟩ := hf
    exact ⟨f, by
      unfold chunk
      rw [List.mem_flatMap]
      exact ⟨sec, hsec, hfm⟩, hfo⟩
  unfold emit
  rw [if_neg (Nat.not_le.mpr hover)]
  unfold splitLargeSection
  by_cases hat : isAtomicBlock cfg sec.content = true
  · rw [if_pos hat]
    refine ⟨_, List.mem_cons_self .., ?_⟩
    show occursIn _ (buildChunkWithContext sec)
    unfold buildChunkWithContext
    by_cases he : sec.context_path.isEmpty
    · rw [if_pos he, hcontent]
      exact ⟨A, B, rfl⟩
    · rw [if_neg he, hcontent]
      exact occursIn_append_left _ ⟨A, B, rfl⟩
  · rw [if_neg hat]
    obtain ⟨part, hpmem, hpocc⟩ :=
      @splitOn2_occurs A (joinSep (str "\n") [l1, l2, l3, l4, l5]) B hpair hLne hhead hlast
    have hpf : part ∈ (pack cfg sec.context_path [] (splitOn2 sec.content)).flatten := by
      rw [pack_flatten, List.nil_append, hcontent]
      exact hpmem
    obtain ⟨b, hbmem, hpinb⟩ := List.mem_flatten.mp hpf
    refine ⟨⟨crumb sec.context_path ++ joinSep (str "\n\n") b,
      sec.context_path, sec.level, sec.page_number⟩, ?_, ?_⟩
    · exact List.mem_map.mpr ⟨b, hbmem, rfl⟩
    · exact occursIn_append_left _ (occursIn_trans hpocc (joinSep_occurs _ hpinb))

/-- C7 (witness). -/
theorem C7_witness :
    ∃ f ∈ chunk 8 (str "# H\nxxxxxxxxxxxxxxxxxxxx\n\n- a\n- b\n- c\n- d\n- e"),
      occursIn (joinSep (str "\n") [str "- a", str "- b", str "- c", str "- d", str "- e"])
        f.content :=
  C7_bullet_list_never_split 8 (str "# H\nxxxxxxxxxxxxxxxxxxxx\n\n- a\n- b\n- c\n- d\n- e")
    ⟨str "H", 1, str "xxxxxxxxxxxxxxxxxxxx\n\n- a\n- b\n- c\n- d\n- e", 1⟩
    (str "xxxxxxxxxxxxxxxxxxxx\n\n") [] (str "- a") (str "- b") (str "- c") (str "- d")
    (str "- e")
    (by decide) (by decide) (by decide) (by decide) (by decide) (by decide)
    (by decide) (by decide) (by decide) (by decide) (by decide) (by decide) (by decide)
    (by decide)

end Chunker
